import Mathlib

/-!
Shallow embedding of the fixture dependency-resolution and transactional
loading engine of `fastapi_toolsets` (`src/fastapi_toolsets/fixtures/fixtures.py`
and the strategy parsing of `src/fastapi_toolsets/cli/commands/fixtures.py`),
together with proofs of the specification claims about it.

Conventions of the embedding:
* Python `None` attribute values are modeled as absence from the attribute
  association list (`Instance.getattr` returns `Option Val`).
* A `FixtureRegistry` is the insertion-ordered value list of the Python
  `dict[str, Fixture]`; lookup (`get?`) finds the first fixture with the
  requested name, which coincides with dict lookup because dict keys are
  unique.
* Exceptions (`KeyError`, `ValueError`) become `Except` error values.
* The recursive DFS of `resolve_dependencies` is embedded with a fuel
  parameter; `visit_noFuel` proves the fuel bound used by
  `resolve_dependencies` is never exhausted, so the fuel is invisible at the
  API level.
-/

namespace FT

/-- An attribute value stored on an ORM entity instance. -/
inductive Val where
  | int (n : Int)
  | str (s : String)
deriving DecidableEq, Repr

/-- The part of an ORM model class the engine looks at: its name and the
names of its primary-key columns (`mapper.primary_key`). -/
structure Model where
  name : String
  pk_cols : List String
deriving DecidableEq, Repr

/-- An entity instance: its model class plus its set attributes.  An
attribute that is `None`/unset in Python is simply absent from `attrs`. -/
structure Instance where
  model : Model
  attrs : List (String × Val)
deriving DecidableEq, Repr

/-- `getattr(instance, col, None)`: the value of column `col`, or `none`. -/
def Instance.getattr (inst : Instance) (col : String) : Option Val :=
  (inst.attrs.find? (fun p => p.1 == col)).map (fun p => p.2)

/-- A primary-key value: a bare value for a single-column key, a tuple for a
composite key (mirroring what `_get_primary_key` returns). -/
inductive PKVal where
  | single (v : Val)
  | tuple (vs : List Val)
deriving DecidableEq, Repr

/-- `_get_primary_key(instance)` from `fixtures.py`:
single-column keys return the (possibly absent) attribute value; otherwise
the tuple of components is returned only when every component is set. -/
def _get_primary_key (inst : Instance) : Option PKVal :=
  match inst.model.pk_cols with
  | [c] => (inst.getattr c).map PKVal.single
  | cols =>
    let vals := cols.map inst.getattr
    if vals.all Option.isSome then some (PKVal.tuple vals.reduceOption) else none

/-- The `LoadStrategy` string enum. -/
inductive LoadStrategy where
  | insert
  | merge
  | skip_existing
deriving DecidableEq, Repr

/-- The `.value` of each `LoadStrategy` member. -/
def LoadStrategy.value : LoadStrategy → String
  | .insert => "insert"
  | .merge => "merge"
  | .skip_existing => "skip_existing"

/-- `LoadStrategy(s)`: Python `Enum` lookup by value; `none` models the
`ValueError` raised when `s` matches no member. -/
def LoadStrategy.fromValue? (s : String) : Option LoadStrategy :=
  if s = "insert" then some .insert
  else if s = "merge" then some .merge
  else if s = "skip_existing" then some .skip_existing
  else none

/-- The `Context` string enum. -/
inductive Context where
  | base
  | production
  | development
  | testing
deriving DecidableEq, Repr

/-- The `.value` of each `Context` member. -/
def Context.value : Context → String
  | .base => "base"
  | .production => "production"
  | .development => "development"
  | .testing => "testing"

/-- A registered fixture.  `func` is the (pure) sequence of instances the
producer callable returns. -/
structure Fixture where
  name : String
  func : List Instance
  depends_on : List String
  contexts : List String
deriving DecidableEq, Repr

/-- The registry: insertion-ordered values of the Python name → fixture dict. -/
abbrev FixtureRegistry := List Fixture

/-- `FixtureRegistry.get(name)`; `none` models the `KeyError`. -/
def FixtureRegistry.get? (reg : FixtureRegistry) (name : String) : Option Fixture :=
  reg.find? (fun f => f.name == name)

/-- The registered names, in registration order. -/
def FixtureRegistry.names (reg : FixtureRegistry) : List String :=
  reg.map (fun f => f.name)

/-- `get_all()`: all fixtures in insertion order. -/
def FixtureRegistry.get_all (reg : FixtureRegistry) : List Fixture := reg

/-- `get_by_context(*contexts)`: fixtures whose context set intersects the
requested set, in registry order. -/
def FixtureRegistry.get_by_context (reg : FixtureRegistry) (contexts : List String) :
    List Fixture :=
  reg.filter (fun f => f.contexts.any (fun c => contexts.contains c))

/-- Errors `resolve_dependencies` can raise: `KeyError` for an unregistered
name, `ValueError` for a circular dependency.  `fuelExhausted` is an artifact
of the fuel-based embedding; `visitList_noFuel` below proves it never occurs
at the fuel used by `resolve_dependencies`. -/
inductive ResolveError where
  | notFound (name : String)
  | circular (name : String)
  | fuelExhausted
deriving DecidableEq, Repr

mutual

/-- The inner `visit(name)` closure of `resolve_dependencies`: membership
check against the `resolved` output list, back-edge check against the
`visiting` stack, lookup, recursive visit of `depends_on`, then post-order
append. -/
def visit (reg : FixtureRegistry) (fuel : Nat) (visiting resolved : List String)
    (name : String) : Except ResolveError (List String) :=
  match fuel with
  | 0 => .error .fuelExhausted
  | f + 1 =>
    if name ∈ resolved then .ok resolved
    else if name ∈ visiting then .error (.circular name)
    else
      match reg.get? name with
      | none => .error (.notFound name)
      | some fixture =>
        match visitList reg f (name :: visiting) resolved fixture.depends_on with
        | .error e => .error e
        | .ok res => .ok (res ++ [name])

/-- The `for dep in fixture.depends_on: visit(dep)` loop (also the top-level
`for name in names: visit(name)` loop), threading the `resolved` list. -/
def visitList (reg : FixtureRegistry) (fuel : Nat) (visiting resolved : List String)
    (deps : List String) : Except ResolveError (List String) :=
  match fuel with
  | 0 => .error .fuelExhausted
  | f + 1 =>
    match deps with
    | [] => .ok resolved
    | d :: ds =>
      match visit reg f visiting resolved d with
      | .error e => .error e
      | .ok res => visitList reg f visiting res ds

end

/-- The largest `depends_on` length in the registry (used only to size the
fuel). -/
def maxDeps (reg : FixtureRegistry) : Nat :=
  (reg.map (fun f => f.depends_on.length)).foldr max 0

/-- The number of registered names not yet on the `visiting` stack (the
quantity that strictly decreases at each recursive `visit`). -/
def fuelMeasure (reg : FixtureRegistry) (visiting : List String) : Nat :=
  ((reg.names.dedup).filter (fun n => decide (n ∉ visiting))).length

/-- Fuel sufficient for any run of the resolver (proved in
`visitList_noFuel`). -/
def resolveFuel (reg : FixtureRegistry) (names : List String) : Nat :=
  reg.names.dedup.length * (maxDeps reg + 2) + names.length + 2

/-- `resolve_dependencies(*names)`: the top-level loop of the Python method,
with a fresh empty `visiting` stack and output list. -/
def FixtureRegistry.resolve_dependencies (reg : FixtureRegistry) (names : List String) :
    Except ResolveError (List String) :=
  visitList reg (resolveFuel reg names) [] [] names

/-- Insertion-ordered union, standing in for Python's `set.update`.  The set
iteration order of CPython is unspecified; every property proved below about
`resolve_context_dependencies` is independent of the enumeration order of
this union. -/
def listUnion (acc l : List String) : List String :=
  acc ++ l.filter (fun x => decide (x ∉ acc))

/-- The `for name in names: all_deps.update(self.resolve_dependencies(name))`
loop of `resolve_context_dependencies`. -/
def collectDeps (reg : FixtureRegistry) : List String → List String →
    Except ResolveError (List String)
  | [], acc => .ok acc
  | n :: ns, acc =>
    match reg.resolve_dependencies [n] with
    | .error e => .error e
    | .ok deps => collectDeps reg ns (listUnion acc deps)

/-- `resolve_context_dependencies(*contexts)`: union of the per-fixture
transitive closures of every fixture tagged with a requested context, then a
single combined resolve pass over the union. -/
def FixtureRegistry.resolve_context_dependencies (reg : FixtureRegistry)
    (contexts : List String) : Except ResolveError (List String) :=
  let names := (reg.get_by_context contexts).map (fun f => f.name)
  match collectDeps reg names [] with
  | .error e => .error e
  | .ok all_deps => reg.resolve_dependencies all_deps

instance exceptDecEq {ε α : Type} [DecidableEq ε] [DecidableEq α] :
    DecidableEq (Except ε α) := fun a b =>
  match a, b with
  | .error e, .error f =>
    if h : e = f then .isTrue (by rw [h])
    else .isFalse (fun hc => h (Except.error.inj hc))
  | .error _, .ok _ => .isFalse (fun hc => Except.noConfusion hc)
  | .ok _, .error _ => .isFalse (fun hc => Except.noConfusion hc)
  | .ok x, .ok y =>
    if h : x = y then .isTrue (by rw [h])
    else .isFalse (fun hc => h (Except.ok.inj hc))

/-- The dependency relation of the registry: `edge reg a b` holds when the
fixture registered under `a` lists `b` in `depends_on`. -/
def edge (reg : FixtureRegistry) (a b : String) : Prop :=
  ∃ f, reg.get? a = some f ∧ b ∈ f.depends_on

/-- Reflexive-transitive reachability along dependency edges. -/
def Reach (reg : FixtureRegistry) : String → String → Prop :=
  Relation.ReflTransGen (edge reg)

/-- Every dependency named by a registered fixture is itself registered
(i.e. the registry is a well-formed dependency graph). -/
def Closed (reg : FixtureRegistry) : Prop :=
  ∀ f ∈ reg, ∀ d ∈ f.depends_on, d ∈ reg.names

instance (reg : FixtureRegistry) : Decidable (Closed reg) :=
  decidable_of_iff (∀ f ∈ reg, ∀ d ∈ f.depends_on, d ∈ reg.names) Iff.rfl

/-- The position of the first occurrence of `x` in `l` (= `list.index` for a
member; `l.length` for a non-member). -/
def pos (x : String) : List String → Nat
  | [] => 0
  | y :: l => if y = x then 0 else pos x l + 1

/-- A topologically sorted, duplicate-free list: every dependency of a member
is a member and appears strictly earlier. -/
def TopoOk (reg : FixtureRegistry) (l : List String) : Prop :=
  l.Nodup ∧ ∀ a b, edge reg a b → a ∈ l → b ∈ l ∧ pos b l < pos a l

/-- The `visiting` stack is a chain of dependency edges (each entry depends
on the entry pushed after it). -/
def StackOk (reg : FixtureRegistry) : List String → Prop
  | [] => True
  | [_] => True
  | a :: b :: rest => edge reg b a ∧ StackOk reg (b :: rest)

/-! ## The load engine (`_load_ordered`, `load_fixtures`,
`load_fixtures_by_context`) over an explicit session model. -/

/-- The storage session shared by the engine and the caller: committed rows
plus rows staged (added/merged) in the current transaction scope. -/
structure Session where
  db : List Instance
  pending : List Instance
deriving DecidableEq, Repr

/-- `session.get(EntityType, pk)`: fetch-by-primary-key over committed and
staged rows (the ORM session autoflushes staged rows before a lookup). -/
def Session.lookup (s : Session) (model : String) (pk : PKVal) : Option Instance :=
  (s.db ++ s.pending).find?
    (fun r => decide (r.model.name = model ∧ _get_primary_key r = some pk))

/-- `session.add(instance)`: stage an instance for creation on commit. -/
def Session.add (s : Session) (inst : Instance) : Session :=
  { s with pending := s.pending ++ [inst] }

/-- Commit of the per-fixture scoped transaction: staged rows become
committed rows. -/
def Session.commit (s : Session) : Session :=
  { db := s.db ++ s.pending, pending := [] }

/-- `session.merge(instance)`: upsert by primary key, returning the
reconciled entity.  A keyed instance matching an existing (committed or
staged) row replaces that row's attributes; otherwise the instance is staged
for creation. -/
def Session.merge (s : Session) (inst : Instance) : Session × Instance :=
  match _get_primary_key inst with
  | some pk =>
    match s.lookup inst.model.name pk with
    | some _ =>
      (⟨s.db.map (fun r =>
          if decide (r.model.name = inst.model.name ∧ _get_primary_key r = some pk)
          then inst else r),
        s.pending.map (fun r =>
          if decide (r.model.name = inst.model.name ∧ _get_primary_key r = some pk)
          then inst else r)⟩, inst)
    | none => (s.add inst, inst)
  | none => (s.add inst, inst)

/-- The per-instance body of the strategy `if/elif` chain inside
`_load_ordered` (lines 285–302 of `fixtures.py`), threading the session and
the `loaded` accumulator. -/
def loadInstance (strategy : LoadStrategy) (s : Session) (loaded : List Instance)
    (inst : Instance) : Session × List Instance :=
  match strategy with
  | .insert => (s.add inst, loaded ++ [inst])
  | .merge =>
    let p := s.merge inst
    (p.1, loaded ++ [p.2])
  | .skip_existing =>
    match _get_primary_key inst with
    | some pk =>
      match s.lookup inst.model.name pk with
      | some _ => (s, loaded)
      | none => (s.add inst, loaded ++ [inst])
    | none => (s.add inst, loaded ++ [inst])

/-- One fixture's scoped transaction: apply every instance under the
strategy, then commit. -/
def loadFixture (strategy : LoadStrategy) (s : Session) (instances : List Instance) :
    Session × List Instance :=
  let p := instances.foldl
    (fun (acc : Session × List Instance) inst => loadInstance strategy acc.1 acc.2 inst)
    (s, [])
  (p.1.commit, p.2)

/-- Observable engine events: a fixture's producer was invoked; a scoped
transaction was opened for a fixture. -/
inductive Ev where
  | producerCalled (name : String)
  | txnOpened (name : String)
deriving DecidableEq, Repr

/-- The engine state threaded through `_load_ordered`: the session, the
event trace, and the results dict (insertion-ordered). -/
structure LoadState where
  session : Session
  trace : List Ev
  results : List (String × List Instance)
deriving DecidableEq, Repr

/-- `results[name] = v` with Python dict semantics: overwrite in place if the
key exists, else append. -/
def dictSet (m : List (String × List Instance)) (k : String) (v : List Instance) :
    List (String × List Instance) :=
  if m.any (fun p => p.1 == k) then
    m.map (fun p => if p.1 == k then (k, v) else p)
  else m ++ [(k, v)]

/-- Failure of a load call: a resolution error, or a `KeyError` from
`registry.get` inside the loading loop. -/
inductive LoadFailure where
  | resolution (e : ResolveError)
  | missingFixture (name : String)
deriving DecidableEq, Repr

/-- `_load_ordered(session, registry, ordered_names, strategy)`: iterate the
ordered names; for each, look the fixture up, invoke its producer, and — if
it produced anything — load its instances inside one scoped transaction.
The returned state is the state at normal return or at the raise point. -/
def _load_ordered (reg : FixtureRegistry) (strategy : LoadStrategy) (st : LoadState) :
    List String → LoadState × Except LoadFailure Unit
  | [] => (st, .ok ())
  | name :: rest =>
    match reg.get? name with
    | none => (st, .error (.missingFixture name))
    | some fixture =>
      let instances := fixture.func
      let st1 : LoadState := { st with trace := st.trace ++ [Ev.producerCalled name] }
      if instances.isEmpty then
        _load_ordered reg strategy { st1 with results := dictSet st1.results name [] } rest
      else
        let st2 : LoadState := { st1 with trace := st1.trace ++ [Ev.txnOpened name] }
        let p := loadFixture strategy st2.session instances
        _load_ordered reg strategy
          { st2 with session := p.1, results := dictSet st2.results name p.2 } rest

/-- Initial engine state over a caller-supplied session. -/
def initState (session : Session) : LoadState :=
  { session := session, trace := [], results := [] }

/-- `load_fixtures(session, registry, *names, strategy)`: resolve, then load
in order.  A resolution error propagates before any engine step runs. -/
def load_fixtures (reg : FixtureRegistry) (session : Session) (names : List String)
    (strategy : LoadStrategy) : LoadState × Except LoadFailure Unit :=
  match reg.resolve_dependencies names with
  | .error e => (initState session, .error (.resolution e))
  | .ok ordered => _load_ordered reg strategy (initState session) ordered

/-- `load_fixtures_by_context(session, registry, *contexts, strategy)`. -/
def load_fixtures_by_context (reg : FixtureRegistry) (session : Session)
    (contexts : List String) (strategy : LoadStrategy) :
    LoadState × Except LoadFailure Unit :=
  match reg.resolve_context_dependencies contexts with
  | .error e => (initState session, .error (.resolution e))
  | .ok ordered => _load_ordered reg strategy (initState session) ordered

/-- The `LoadStrategy(strategy)` conversion in the CLI `load` command
(`cli/commands/fixtures.py`): an unknown value is reported as an invalid
strategy error. -/
def cli_parse_strategy (s : String) : Except String LoadStrategy :=
  match LoadStrategy.fromValue? s with
  | some st => .ok st
  | none => .error ("Invalid strategy: " ++ s ++ ". Use: merge, insert, skip_existing")

/-- State-passing form of `resolve_dependencies`: the method reads
`self._fixtures` and never assigns to it, so the post-state registry is the
input registry. -/
def FixtureRegistry.resolve_dependenciesS (reg : FixtureRegistry) (names : List String) :
    Except ResolveError (List String) × FixtureRegistry :=
  (reg.resolve_dependencies names, reg)

/-- State-passing form of `resolve_context_dependencies` (likewise
read-only on the registry). -/
def FixtureRegistry.resolve_context_dependenciesS (reg : FixtureRegistry)
    (contexts : List String) : Except ResolveError (List String) × FixtureRegistry :=
  (reg.resolve_context_dependencies contexts, reg)

/-! ## Basic lemmas about the registry, positions, and the graph notions. -/

theorem get?_mem_name {reg : FixtureRegistry} {name : String} {f : Fixture}
    (h : reg.get? name = some f) : f ∈ reg ∧ f.name = name := by
  unfold FixtureRegistry.get? at h
  refine ⟨List.mem_of_find?_eq_some h, ?_⟩
  have h2 := List.find?_some h
  simpa using h2

theorem get?_eq_none_iff {reg : FixtureRegistry} {name : String} :
    reg.get? name = none ↔ name ∉ reg.names := by
  unfold FixtureRegistry.get? FixtureRegistry.names
  rw [List.find?_eq_none]
  constructor
  · intro h hmem
    obtain ⟨f, hf, hfn⟩ := List.mem_map.mp hmem
    exact h f hf (by simp [hfn])
  · intro h f hf hbeq
    exact h (List.mem_map.mpr ⟨f, hf, by simpa using hbeq⟩)

theorem get?_isSome_of_mem {reg : FixtureRegistry} {name : String}
    (h : name ∈ reg.names) : ∃ f, reg.get? name = some f := by
  cases hg : reg.get? name with
  | none => exact absurd (get?_eq_none_iff.mp hg) (by simpa using h)
  | some f => exact ⟨f, rfl⟩

theorem edge_iff_of_get? {reg : FixtureRegistry} {a : String} {f : Fixture}
    (h : reg.get? a = some f) : ∀ b, edge reg a b ↔ b ∈ f.depends_on := by
  intro b
  constructor
  · rintro ⟨g, hg, hb⟩
    rw [h] at hg
    cases hg
    exact hb
  · intro hb
    exact ⟨f, h, hb⟩

theorem edge_name_mem {reg : FixtureRegistry} {a b : String} (h : edge reg a b) :
    a ∈ reg.names := by
  obtain ⟨f, hf, _⟩ := h
  have hm := get?_mem_name hf
  unfold FixtureRegistry.names
  exact List.mem_map.mpr ⟨f, hm.1, hm.2⟩

theorem reach_registered {reg : FixtureRegistry} (hclosed : Closed reg) :
    ∀ {a b : String}, Reach reg a b → a ∈ reg.names → b ∈ reg.names := by
  intro a b hr
  induction hr with
  | refl => exact fun h => h
  | tail _ he ih =>
    intro ha
    obtain ⟨f, hf, hd⟩ := he
    exact hclosed f (get?_mem_name hf).1 _ hd

theorem pos_lt_length {x : String} : ∀ {l : List String}, x ∈ l → pos x l < l.length := by
  intro l
  induction l with
  | nil => intro h; cases h
  | cons y l ih =>
    intro h
    by_cases hxy : y = x
    · simp [pos, hxy]
    · have hx : x ∈ l := by
        cases List.mem_cons.mp h with
        | inl h' => exact absurd h'.symm hxy
        | inr h' => exact h'
      simpa [pos, hxy] using Nat.succ_lt_succ (ih hx)

theorem pos_append_of_mem {x : String} : ∀ {l1 : List String} (l2 : List String),
    x ∈ l1 → pos x (l1 ++ l2) = pos x l1 := by
  intro l1
  induction l1 with
  | nil => intro l2 h; cases h
  | cons y l ih =>
    intro l2 h
    by_cases hxy : y = x
    · simp [pos, hxy]
    · have hx : x ∈ l := by
        cases List.mem_cons.mp h with
        | inl h' => exact absurd h'.symm hxy
        | inr h' => exact h'
      simp [pos, hxy, ih l2 hx]

theorem pos_append_self {x : String} : ∀ {l : List String},
    x ∉ l → pos x (l ++ [x]) = l.length := by
  intro l
  induction l with
  | nil => intro _; simp [pos]
  | cons y l ih =>
    intro h
    have hyx : y ≠ x := fun he => h (he ▸ List.mem_cons_self y l)
    have hx : x ∉ l := fun hm => h (List.mem_cons_of_mem _ hm)
    simp [pos, hyx, ih hx]

theorem topoOk_transGen {reg : FixtureRegistry} {l : List String} (h : TopoOk reg l) :
    ∀ {a b : String}, Relation.TransGen (edge reg) a b → a ∈ l →
      b ∈ l ∧ pos b l < pos a l := by
  intro a b htg
  induction htg with
  | single he => intro ha; exact h.2 _ _ he ha
  | tail _ he ih =>
    intro ha
    obtain ⟨hc, hlt⟩ := ih ha
    obtain ⟨hb, hlt2⟩ := h.2 _ _ he hc
    exact ⟨hb, lt_trans hlt2 hlt⟩

theorem topoOk_reach {reg : FixtureRegistry} {l : List String} (h : TopoOk reg l)
    {a b : String} (hr : Reach reg a b) (ha : a ∈ l) : b ∈ l := by
  induction hr with
  | refl => exact ha
  | tail _ he ih => exact (h.2 _ _ he ih).1

theorem stackOk_reach {reg : FixtureRegistry} : ∀ {visiting : List String}
    {head : String}, StackOk reg (head :: visiting) →
    ∀ y ∈ visiting, Relation.TransGen (edge reg) y head := by
  intro visiting
  induction visiting with
  | nil => intro head _ y hy; cases hy
  | cons b rest ih =>
    intro head hst y hy
    obtain ⟨he, hst'⟩ := hst
    cases List.mem_cons.mp hy with
    | inl h' => exact h' ▸ Relation.TransGen.single he
    | inr h' => exact Relation.TransGen.tail (ih hst' y h') he

theorem acyclic_of_rank (reg : FixtureRegistry) (rank : String → Nat)
    (h : ∀ f ∈ reg, ∀ d ∈ f.depends_on, rank d < rank f.name) :
    ∀ a b, Relation.TransGen (edge reg) a b → rank b < rank a := by
  intro a b htg
  induction htg with
  | single he =>
    obtain ⟨f, hf, hd⟩ := he
    have hm := get?_mem_name hf
    have := h f hm.1 _ hd
    rwa [hm.2] at this
  | tail _ he ih =>
    obtain ⟨f, hf, hd⟩ := he
    have hm := get?_mem_name hf
    have := h f hm.1 _ hd
    rw [hm.2] at this
    exact lt_trans this ih

theorem le_foldr_max : ∀ (l : List Nat) (a : Nat), a ∈ l → a ≤ l.foldr max 0 := by
  intro l
  induction l with
  | nil => intro a h; cases h
  | cons b l ih =>
    intro a h
    cases List.mem_cons.mp h with
    | inl h' => exact h' ▸ le_max_left _ _
    | inr h' => exact le_trans (ih a h') (le_max_right _ _)

theorem depLen_le_maxDeps {reg : FixtureRegistry} {f : Fixture} (h : f ∈ reg) :
    f.depends_on.length ≤ maxDeps reg :=
  le_foldr_max _ _ (List.mem_map.mpr ⟨f, h, rfl⟩)

theorem filter_imp_length_le (p q : String → Bool) (hpq : ∀ a, p a = true → q a = true) :
    ∀ l : List String, (l.filter p).length ≤ (l.filter q).length := by
  intro l
  induction l with
  | nil => simp
  | cons a l ih =>
    by_cases hp : p a = true
    · simp [List.filter_cons, hp, hpq a hp]
      omega
    · simp only [List.filter_cons, Bool.not_eq_true] at hp ⊢
      rw [hp]
      simp only [Bool.false_eq_true, if_false]
      cases hq : q a <;> simp <;> omega

theorem fuelMeasure_cons_lt {reg : FixtureRegistry} {name : String}
    {visiting : List String} (h1 : name ∈ reg.names) (h2 : name ∉ visiting) :
    fuelMeasure reg (name :: visiting) < fuelMeasure reg visiting := by
  unfold fuelMeasure
  have hmem : name ∈ reg.names.dedup := List.mem_dedup.mpr h1
  have himp : ∀ a : String, (decide (a ∉ name :: visiting)) = true →
      (decide (a ∉ visiting)) = true := by
    intro a ha
    simp only [decide_eq_true_eq, List.mem_cons, not_or] at ha ⊢
    exact ha.2
  generalize reg.names.dedup = l at hmem ⊢
  induction l with
  | nil => cases hmem
  | cons a l ih =>
    by_cases han : a = name
    · subst han
      have hkeep : (decide (a ∉ visiting)) = true := by simpa using h2
      have hdrop : (decide (a ∉ a :: visiting)) = false := by simp
      simp only [List.filter_cons, hkeep, hdrop, Bool.false_eq_true, if_false, if_true,
        List.length_cons]
      exact Nat.lt_succ_of_le (filter_imp_length_le _ _ himp l)
    · have hmem' : name ∈ l := by
        cases List.mem_cons.mp hmem with
        | inl h' => exact absurd h'.symm han
        | inr h' => exact h'
      have heq : (decide (a ∉ name :: visiting)) = (decide (a ∉ visiting)) := by
        by_cases hv : a ∈ visiting
        · simp [hv]
        · simp [hv, han]
      simp only [List.filter_cons, heq]
      cases hq : (decide (a ∉ visiting)) <;> simp only [Bool.false_eq_true, if_false,
        if_true, List.length_cons]
      · exact ih hmem'
      · exact Nat.succ_lt_succ (ih hmem')

theorem fuelMeasure_nil (reg : FixtureRegistry) :
    fuelMeasure reg [] = reg.names.dedup.length := by
  unfold fuelMeasure
  have : ∀ a : String, (decide (a ∉ ([] : List String))) = true := by simp
  rw [List.filter_eq_self.mpr fun a _ => this a]

/-! ## The main invariants of the DFS.

`okSpec` characterises successful runs: the output extends the input
`resolved` list; the visited name (every listed dependency) ends up in the
output; every newly added name is off the `visiting` stack, registered, and
reachable from the visited name; and topological sortedness is preserved. -/

theorem okSpec (reg : FixtureRegistry) : ∀ fuel : Nat,
    (∀ visiting resolved name res,
      visit reg fuel visiting resolved name = .ok res →
      (∃ t, res = resolved ++ t) ∧
      name ∈ res ∧
      (∀ x ∈ res, x ∈ resolved ∨ (x ∉ visiting ∧ x ∈ reg.names ∧ Reach reg name x)) ∧
      (TopoOk reg resolved → TopoOk reg res)) ∧
    (∀ visiting resolved deps res,
      visitList reg fuel visiting resolved deps = .ok res →
      (∃ t, res = resolved ++ t) ∧
      (∀ d ∈ deps, d ∈ res) ∧
      (∀ x ∈ res, x ∈ resolved ∨
        (x ∉ visiting ∧ x ∈ reg.names ∧ ∃ d ∈ deps, Reach reg d x)) ∧
      (TopoOk reg resolved → TopoOk reg res)) := by
  intro fuel
  induction fuel with
  | zero =>
    constructor
    · intro visiting resolved name res h
      simp [visit] at h
    · intro visiting resolved deps res h
      simp [visitList] at h
  | succ f ih =>
    obtain ⟨ihv, ihl⟩ := ih
    constructor
    · -- the visit case
      intro visiting resolved name res h
      simp only [visit] at h
      split at h
      · -- name already resolved
        rename_i hres
        injection h with h
        subst h
        exact ⟨⟨[], by simp⟩, hres, fun x hx => Or.inl hx, fun ht => ht⟩
      · split at h
        · exact absurd h (by simp)
        · rename_i hnres hnvis
          split at h
          · exact absurd h (by simp)
          · rename_i fixture hfix
            split at h
            · exact absurd h (by simp)
            · rename_i res' hres'
              injection h with h
              subst h
              obtain ⟨⟨t, ht⟩, hdeps, hnew, htopo⟩ := ihl _ _ _ _ hres'
              have hm := get?_mem_name hfix
              have hnamereg : name ∈ reg.names := by
                unfold FixtureRegistry.names
                exact List.mem_map.mpr ⟨fixture, hm.1, hm.2⟩
              have hname_not_res' : name ∉ res' := by
                intro hmem
                cases hnew name hmem with
                | inl hh => exact hnres hh
                | inr hh => exact hh.1 (List.mem_cons_self _ _)
              refine ⟨⟨t ++ [name], by simp [ht]⟩, ?_, ?_, ?_⟩
              · exact List.mem_append.mpr (Or.inr (List.mem_singleton.mpr rfl))
              · intro x hx
                cases List.mem_append.mp hx with
                | inl hx' =>
                  cases hnew x hx' with
                  | inl hh => exact Or.inl hh
                  | inr hh =>
                    obtain ⟨hxv, hxn, d, hd, hrx⟩ := hh
                    refine Or.inr ⟨fun hv => hxv (List.mem_cons_of_mem _ hv), hxn, ?_⟩
                    exact Relation.ReflTransGen.head ⟨fixture, hfix, hd⟩ hrx
                | inr hx' =>
                  have hx' : x = name := List.mem_singleton.mp hx'
                  subst hx'
                  exact Or.inr ⟨hnvis, hnamereg, Relation.ReflTransGen.refl⟩
              · intro htr
                have htopo' := htopo htr
                constructor
                · rw [List.nodup_append]
                  exact ⟨htopo'.1, List.nodup_singleton _,
                    fun x hx hx' => hname_not_res' ((List.mem_singleton.mp hx') ▸ hx)⟩
                · intro a b he ha
                  cases List.mem_append.mp ha with
                  | inl ha' =>
                    obtain ⟨hb, hlt⟩ := htopo'.2 a b he ha'
                    refine ⟨List.mem_append.mpr (Or.inl hb), ?_⟩
                    rw [pos_append_of_mem _ hb, pos_append_of_mem _ ha']
                    exact hlt
                  | inr ha' =>
                    have ha' : a = name := List.mem_singleton.mp ha'
                    subst ha'
                    have hb : b ∈ fixture.depends_on := (edge_iff_of_get? hfix b).mp he
                    have hbres : b ∈ res' := hdeps b hb
                    refine ⟨List.mem_append.mpr (Or.inl hbres), ?_⟩
                    rw [pos_append_of_mem _ hbres, pos_append_self hname_not_res']
                    exact pos_lt_length hbres
    · -- the visitList case
      intro visiting resolved deps res h
      simp only [visitList] at h
      split at h
      · -- deps = []
        injection h with h
        subst h
        exact ⟨⟨[], by simp⟩, by simp, fun x hx => Or.inl hx, fun ht => ht⟩
      · rename_i d ds
        split at h
        · exact absurd h (by simp)
        · rename_i res1 h1
          obtain ⟨⟨t1, ht1⟩, hdmem, hnew1, htopo1⟩ := ihv _ _ _ _ h1
          obtain ⟨⟨t2, ht2⟩, hdeps2, hnew2, htopo2⟩ := ihl _ _ _ _ h
          refine ⟨⟨t1 ++ t2, by simp [ht2, ht1]⟩, ?_, ?_, fun ht => htopo2 (htopo1 ht)⟩
          · intro d' hd'
            cases List.mem_cons.mp hd' with
            | inl hh => exact hh ▸ (ht2 ▸ List.mem_append.mpr (Or.inl hdmem))
            | inr hh => exact hdeps2 d' hh
          · intro x hx
            cases hnew2 x hx with
            | inl hx1 =>
              cases hnew1 x hx1 with
              | inl hh => exact Or.inl hh
              | inr hh =>
                exact Or.inr ⟨hh.1, hh.2.1, d, List.mem_cons_self _ _, hh.2.2⟩
            | inr hh =>
              obtain ⟨hxv, hxn, d', hd', hr⟩ := hh
              exact Or.inr ⟨hxv, hxn, d', List.mem_cons_of_mem _ hd', hr⟩

/-- On a closed registry, no `KeyError` escapes a visit of a registered
name. -/
theorem noNotFound (reg : FixtureRegistry) (hclosed : Closed reg) : ∀ fuel : Nat,
    (∀ visiting resolved name m, name ∈ reg.names →
      visit reg fuel visiting resolved name ≠ .error (.notFound m)) ∧
    (∀ visiting resolved deps m, (∀ d ∈ deps, d ∈ reg.names) →
      visitList reg fuel visiting resolved deps ≠ .error (.notFound m)) := by
  intro fuel
  induction fuel with
  | zero =>
    constructor
    · intro visiting resolved name m _ h
      simp [visit] at h
    · intro visiting resolved deps m _ h
      simp [visitList] at h
  | succ f ih =>
    obtain ⟨ihv, ihl⟩ := ih
    constructor
    · intro visiting resolved name m hname h
      simp only [visit] at h
      split at h
      · exact absurd h (by simp)
      · split at h
        · exact absurd h (by simp)
        · split at h
          · rename_i hget
            exact (get?_eq_none_iff.mp hget) hname
          · rename_i fixture hfix
            split at h
            · rename_i e heq
              injection h with h
              subst h
              refine ihl _ _ _ m ?_ heq
              intro d hd
              exact hclosed fixture (get?_mem_name hfix).1 d hd
            · exact absurd h (by simp)
    · intro visiting resolved deps m hdeps h
      simp only [visitList] at h
      split at h
      · exact absurd h (by simp)
      · rename_i d ds
        split at h
        · rename_i e heq
          injection h with h
          subst h
          exact ihv _ _ _ m (hdeps d (List.mem_cons_self _ _)) heq
        · exact ihl _ _ _ m (fun d' hd' => hdeps d' (List.mem_cons_of_mem _ hd')) h

/-- A circular-dependency error always names a node lying on an actual
dependency cycle that is reachable from one of the given roots. -/
theorem circularSpec (reg : FixtureRegistry) (roots : List String) : ∀ fuel : Nat,
    (∀ visiting resolved name e,
      StackOk reg (name :: visiting) →
      (∃ r ∈ roots, Reach reg r name) →
      visit reg fuel visiting resolved name = .error (.circular e) →
      Relation.TransGen (edge reg) e e ∧ ∃ r ∈ roots, Reach reg r e) ∧
    (∀ visiting resolved deps e,
      (∀ d ∈ deps, StackOk reg (d :: visiting)) →
      (∀ d ∈ deps, ∃ r ∈ roots, Reach reg r d) →
      visitList reg fuel visiting resolved deps = .error (.circular e) →
      Relation.TransGen (edge reg) e e ∧ ∃ r ∈ roots, Reach reg r e) := by
  intro fuel
  induction fuel with
  | zero =>
    constructor
    · intro visiting resolved name e _ _ h
      simp [visit] at h
    · intro visiting resolved deps e _ _ h
      simp [visitList] at h
  | succ f ih =>
    obtain ⟨ihv, ihl⟩ := ih
    constructor
    · intro visiting resolved name e hstack hroot h
      simp only [visit] at h
      split at h
      · exact absurd h (by simp)
      · split at h
        · rename_i hnres hnvis
          injection h with h
          injection h with h
          subst h
          exact ⟨stackOk_reach hstack _ hnvis, hroot⟩
        · split at h
          · exact absurd h (by simp)
          · rename_i fixture hfix
            split at h
            · rename_i e' heq
              injection h with h
              subst h
              refine ihl _ _ _ e ?_ ?_ heq
              · intro d hd
                exact ⟨⟨fixture, hfix, hd⟩, hstack⟩
              · intro d hd
                obtain ⟨r, hr, hreach⟩ := hroot
                exact ⟨r, hr, Relation.ReflTransGen.tail hreach ⟨fixture, hfix, hd⟩⟩
            · exact absurd h (by simp)
    · intro visiting resolved deps e hstackd hrootd h
      simp only [visitList] at h
      split at h
      · exact absurd h (by simp)
      · rename_i d ds
        split at h
        · rename_i e' heq
          injection h with h
          subst h
          exact ihv _ _ _ e (hstackd d (List.mem_cons_self _ _))
            (hrootd d (List.mem_cons_self _ _)) heq
        · exact ihl _ _ _ e (fun d' hd' => hstackd d' (List.mem_cons_of_mem _ hd'))
            (fun d' hd' => hrootd d' (List.mem_cons_of_mem _ hd')) h

/-- The fuel bound of the embedding is sufficient: with fuel at least
`fuelMeasure·(maxDeps+2)` plus the pending list length, the artificial
`fuelExhausted` error cannot occur. -/
theorem noFuel (reg : FixtureRegistry) : ∀ fuel : Nat,
    (∀ visiting resolved name,
      fuelMeasure reg visiting * (maxDeps reg + 2) + 1 ≤ fuel →
      visit reg fuel visiting resolved name ≠ .error .fuelExhausted) ∧
    (∀ visiting resolved deps,
      fuelMeasure reg visiting * (maxDeps reg + 2) + deps.length + 2 ≤ fuel →
      visitList reg fuel visiting resolved deps ≠ .error .fuelExhausted) := by
  intro fuel
  induction fuel with
  | zero =>
    constructor
    · intro visiting resolved name hle
      omega
    · intro visiting resolved deps hle
      omega
  | succ f ih =>
    obtain ⟨ihv, ihl⟩ := ih
    constructor
    · intro visiting resolved name hle h
      simp only [visit] at h
      split at h
      · exact absurd h (by simp)
      · split at h
        · exact absurd h (by simp)
        · rename_i hnres hnvis
          split at h
          · exact absurd h (by simp)
          · rename_i fixture hfix
            split at h
            · rename_i e heq
              injection h with h
              subst h
              have hm := get?_mem_name hfix
              have hnamereg : name ∈ reg.names := by
                unfold FixtureRegistry.names
                exact List.mem_map.mpr ⟨fixture, hm.1, hm.2⟩
              have hlt : fuelMeasure reg (name :: visiting) < fuelMeasure reg visiting :=
                fuelMeasure_cons_lt hnamereg hnvis
              have hdl : fixture.depends_on.length ≤ maxDeps reg := depLen_le_maxDeps hm.1
              refine ihl _ _ _ ?_ heq
              have hmul : (fuelMeasure reg (name :: visiting) + 1) * (maxDeps reg + 2) ≤
                  fuelMeasure reg visiting * (maxDeps reg + 2) :=
                Nat.mul_le_mul_right _ (by omega)
              rw [Nat.succ_mul] at hmul
              omega
            · exact absurd h (by simp)
    · intro visiting resolved deps hle h
      simp only [visitList] at h
      split at h
      · exact absurd h (by simp)
      · rename_i d ds
        split at h
        · rename_i e heq
          injection h with h
          subst h
          refine ihv _ _ _ ?_ heq
          simp only [List.length_cons] at hle
          omega
        · refine ihl _ _ _ ?_ h
          simp only [List.length_cons] at hle
          omega

theorem topoOk_nil (reg : FixtureRegistry) : TopoOk reg [] :=
  ⟨List.nodup_nil, by intro a b _ ha; cases ha⟩

/-- Characterisation of a successful `resolve_dependencies` run: on a closed
registry with registered request names and no cycle reachable from them, the
call returns a topologically sorted duplicate-free list that contains every
requested name, and whose members are exactly registered names reachable
from the request. -/
theorem resolve_ok (reg : FixtureRegistry) (names : List String) (hclosed : Closed reg)
    (hreg : ∀ n ∈ names, n ∈ reg.names)
    (hacyc : ∀ c, (∃ n ∈ names, Reach reg n c) → ¬ Relation.TransGen (edge reg) c c) :
    ∃ l, reg.resolve_dependencies names = .ok l ∧ TopoOk reg l ∧
      (∀ n ∈ names, n ∈ l) ∧ (∀ x ∈ l, x ∈ reg.names ∧ ∃ n ∈ names, Reach reg n x) := by
  cases hres : visitList reg (resolveFuel reg names) [] [] names with
  | ok l =>
    obtain ⟨_, hmem, hnew, htopo⟩ := (okSpec reg _).2 _ _ _ _ hres
    refine ⟨l, hres, htopo (topoOk_nil reg), hmem, ?_⟩
    intro x hx
    cases hnew x hx with
    | inl hh => cases hh
    | inr hh => exact ⟨hh.2.1, hh.2.2⟩
  | error e =>
    exfalso
    cases e with
    | notFound m => exact (noNotFound reg hclosed _).2 _ _ _ m hreg hres
    | circular c =>
      obtain ⟨htg, r, hr, hreach⟩ := (circularSpec reg names _).2 [] [] names c
        (fun d _ => trivial) (fun d hd => ⟨d, hd, Relation.ReflTransGen.refl⟩) hres
      exact hacyc c ⟨r, hr, hreach⟩ htg
    | fuelExhausted =>
      refine (noFuel reg _).2 [] [] names ?_ hres
      rw [fuelMeasure_nil]
      unfold resolveFuel
      omega

/-- If a cycle is reachable from a requested name (registry closed, request
names registered), `resolve_dependencies` raises the circular-dependency
error, naming a node that lies on a cycle. -/
theorem resolve_cycle (reg : FixtureRegistry) (names : List String)
    (hclosed : Closed reg) (hreg : ∀ n ∈ names, n ∈ reg.names)
    (hcyc : ∃ n ∈ names, ∃ c, Reach reg n c ∧ Relation.TransGen (edge reg) c c) :
    ∃ c, reg.resolve_dependencies names = .error (.circular c) ∧
      Relation.TransGen (edge reg) c c := by
  obtain ⟨n, hn, c, hreach, htg⟩ := hcyc
  cases hres : visitList reg (resolveFuel reg names) [] [] names with
  | ok l =>
    exfalso
    obtain ⟨_, hmem, _, htopo⟩ := (okSpec reg _).2 _ _ _ _ hres
    have hl := htopo (topoOk_nil reg)
    have hcl : c ∈ l := topoOk_reach hl hreach (hmem n hn)
    obtain ⟨_, hlt⟩ := topoOk_transGen hl htg hcl
    exact lt_irrefl _ hlt
  | error e =>
    cases e with
    | notFound m => exact absurd hres ((noNotFound reg hclosed _).2 _ _ _ m hreg)
    | circular cc =>
      obtain ⟨htg', _⟩ := (circularSpec reg names _).2 [] [] names cc
        (fun d _ => trivial) (fun d hd => ⟨d, hd, Relation.ReflTransGen.refl⟩) hres
      exact ⟨cc, hres, htg'⟩
    | fuelExhausted =>
      exfalso
      refine (noFuel reg _).2 [] [] names ?_ hres
      rw [fuelMeasure_nil]
      unfold resolveFuel
      omega

/-- A single-name resolve returns exactly the reflexive-transitive
dependency closure of that name. -/
theorem resolve_single_spec (reg : FixtureRegistry) (n : String) (hclosed : Closed reg)
    (hn : n ∈ reg.names)
    (hacyc : ∀ c, Reach reg n c → ¬ Relation.TransGen (edge reg) c c) :
    ∃ l, reg.resolve_dependencies [n] = .ok l ∧ (∀ x, x ∈ l ↔ Reach reg n x) := by
  obtain ⟨l, hres, htopo, hmem, hchar⟩ := resolve_ok reg [n] hclosed
    (by intro m hm; rw [List.mem_singleton.mp hm]; exact hn)
    (by
      intro c hc htg
      obtain ⟨m, hm, hr⟩ := hc
      rw [List.mem_singleton.mp hm] at hr
      exact hacyc c hr htg)
  refine ⟨l, hres, ?_⟩
  intro x
  constructor
  · intro hx
    obtain ⟨_, m, hm, hr⟩ := hchar x hx
    rw [List.mem_singleton.mp hm] at hr
    exact hr
  · intro hr
    exact topoOk_reach htopo hr (hmem n (List.mem_singleton.mpr rfl))

theorem listUnion_mem (acc l : List String) (x : String) :
    x ∈ listUnion acc l ↔ x ∈ acc ∨ x ∈ l := by
  simp only [listUnion, List.mem_append, List.mem_filter, decide_eq_true_eq]
  by_cases hx : x ∈ acc <;> simp [hx]

/-- The union-accumulation loop of `resolve_context_dependencies` succeeds
and collects exactly the reachability closures of the processed names. -/
theorem collectDeps_ok (reg : FixtureRegistry) (hclosed : Closed reg) :
    ∀ (ns acc : List String),
    (∀ n ∈ ns, n ∈ reg.names) →
    (∀ n ∈ ns, ∀ c, Reach reg n c → ¬ Relation.TransGen (edge reg) c c) →
    ∃ u, collectDeps reg ns acc = .ok u ∧
      (∀ x, x ∈ u ↔ x ∈ acc ∨ ∃ n ∈ ns, Reach reg n x) := by
  intro ns
  induction ns with
  | nil =>
    intro acc _ _
    exact ⟨acc, rfl, by simp [collectDeps]⟩
  | cons n ns ih =>
    intro acc hreg hacyc
    obtain ⟨l, hres, hl⟩ := resolve_single_spec reg n hclosed
      (hreg n (List.mem_cons_self _ _)) (hacyc n (List.mem_cons_self _ _))
    obtain ⟨u, hcd, hu⟩ := ih (listUnion acc l)
      (fun m hm => hreg m (List.mem_cons_of_mem _ hm))
      (fun m hm => hacyc m (List.mem_cons_of_mem _ hm))
    refine ⟨u, ?_, ?_⟩
    · simp only [collectDeps, hres]
      exact hcd
    · intro x
      rw [hu x, listUnion_mem, hl x]
      constructor
      · rintro ((h | h) | ⟨m, hm, hr⟩)
        · exact Or.inl h
        · exact Or.inr ⟨n, List.mem_cons_self _ _, h⟩
        · exact Or.inr ⟨m, List.mem_cons_of_mem _ hm, hr⟩
      · rintro (h | ⟨m, hm, hr⟩)
        · exact Or.inl (Or.inl h)
        · cases List.mem_cons.mp hm with
          | inl he => exact Or.inl (Or.inr (he ▸ hr))
          | inr he => exact Or.inr ⟨m, he, hr⟩

/-- Characterisation of a successful `resolve_context_dependencies` run: a
topologically sorted duplicate-free list whose members are exactly the names
reachable from some fixture tagged with a requested context (cross-context
dependency edges included). -/
theorem resolve_context_ok (reg : FixtureRegistry) (contexts : List String)
    (hclosed : Closed reg)
    (hacyc : ∀ c, (∃ f ∈ reg.get_by_context contexts, Reach reg f.name c) →
      ¬ Relation.TransGen (edge reg) c c) :
    ∃ l, reg.resolve_context_dependencies contexts = .ok l ∧ TopoOk reg l ∧
      (∀ x, x ∈ l ↔ ∃ f ∈ reg.get_by_context contexts, Reach reg f.name x) := by
  have hgbc : ∀ f ∈ reg.get_by_context contexts, f ∈ reg := by
    intro f hf
    exact List.mem_of_mem_filter hf
  have hnames_reg : ∀ n ∈ (reg.get_by_context contexts).map (fun f => f.name),
      n ∈ reg.names := by
    intro n hn
    obtain ⟨f, hf, hfn⟩ := List.mem_map.mp hn
    unfold FixtureRegistry.names
    exact List.mem_map.mpr ⟨f, hgbc f hf, hfn⟩
  have hnames_acyc : ∀ n ∈ (reg.get_by_context contexts).map (fun f => f.name),
      ∀ c, Reach reg n c → ¬ Relation.TransGen (edge reg) c c := by
    intro n hn c hr htg
    obtain ⟨f, hf, hfn⟩ := List.mem_map.mp hn
    exact hacyc c ⟨f, hf, hfn ▸ hr⟩ htg
  obtain ⟨u, hcd, hu⟩ := collectDeps_ok reg hclosed _ [] hnames_reg hnames_acyc
  have hu' : ∀ x, x ∈ u ↔ ∃ f ∈ reg.get_by_context contexts, Reach reg f.name x := by
    intro x
    rw [hu x]
    simp only [List.not_mem_nil, false_or]
    constructor
    · rintro ⟨n, hn, hr⟩
      obtain ⟨f, hf, hfn⟩ := List.mem_map.mp hn
      exact ⟨f, hf, hfn ▸ hr⟩
    · rintro ⟨f, hf, hr⟩
      exact ⟨f.name, List.mem_map.mpr ⟨f, hf, rfl⟩, hr⟩
  have hureg : ∀ m ∈ u, m ∈ reg.names := by
    intro m hm
    obtain ⟨f, hf, hr⟩ := (hu' m).mp hm
    refine reach_registered hclosed hr ?_
    unfold FixtureRegistry.names
    exact List.mem_map.mpr ⟨f, hgbc f hf, rfl⟩
  have huacyc : ∀ c, (∃ m ∈ u, Reach reg m c) → ¬ Relation.TransGen (edge reg) c c := by
    rintro c ⟨m, hm, hr⟩ htg
    obtain ⟨f, hf, hr0⟩ := (hu' m).mp hm
    exact hacyc c ⟨f, hf, Relation.ReflTransGen.trans hr0 hr⟩ htg
  obtain ⟨l, hresl, htopo, hmem, hchar⟩ := resolve_ok reg u hclosed hureg huacyc
  refine ⟨l, ?_, htopo, ?_⟩
  · unfold FixtureRegistry.resolve_context_dependencies
    simp only [hcd]
    exact hresl
  · intro x
    constructor
    · intro hx
      obtain ⟨_, m, hm, hr⟩ := hchar x hx
      obtain ⟨f, hf, hr0⟩ := (hu' m).mp hm
      exact ⟨f, hf, Relation.ReflTransGen.trans hr0 hr⟩
    · rintro ⟨f, hf, hr⟩
      have hfu : f.name ∈ u := (hu' f.name).mpr ⟨f, hf, Relation.ReflTransGen.refl⟩
      exact topoOk_reach htopo hr (hmem f.name hfu)

/-! ## Lemmas about the load engine. -/

theorem dictSet_append {m : List (String × List Instance)} {k : String}
    (v : List Instance) (h : k ∉ m.map Prod.fst) : dictSet m k v = m ++ [(k, v)] := by
  have hany : m.any (fun p => p.1 == k) = false := by
    rw [List.any_eq_false]
    intro p hp hbeq
    exact h (List.mem_map.mpr ⟨p, hp, by simpa using hbeq⟩)
  simp [dictSet, hany]

/-- The output of a successful resolve is duplicate-free and contains only
registered names. -/
theorem resolve_out_basic (reg : FixtureRegistry) (names l : List String)
    (h : reg.resolve_dependencies names = .ok l) :
    l.Nodup ∧ ∀ x ∈ l, x ∈ reg.names := by
  unfold FixtureRegistry.resolve_dependencies at h
  obtain ⟨_, _, hnew, htopo⟩ := (okSpec reg _).2 _ _ _ _ h
  refine ⟨(htopo (topoOk_nil reg)).1, ?_⟩
  intro x hx
  cases hnew x hx with
  | inl hh => cases hh
  | inr hh => exact hh.2.1

theorem resolve_context_out_basic (reg : FixtureRegistry) (contexts l : List String)
    (h : reg.resolve_context_dependencies contexts = .ok l) :
    l.Nodup ∧ ∀ x ∈ l, x ∈ reg.names := by
  unfold FixtureRegistry.resolve_context_dependencies at h
  cases hcd : collectDeps reg ((reg.get_by_context contexts).map fun f => f.name) [] with
  | error e =>
    simp only [hcd] at h
    exact absurd h (by simp)
  | ok u =>
    simp only [hcd] at h
    exact resolve_out_basic reg u l h

/-- `_load_ordered` over registered, fresh names succeeds and appends exactly
one results entry per name, in order. -/
theorem load_ordered_keys (reg : FixtureRegistry) (strategy : LoadStrategy) :
    ∀ (ordered : List String) (st : LoadState),
    (∀ n ∈ ordered, n ∈ reg.names) →
    (st.results.map Prod.fst ++ ordered).Nodup →
    ∃ st', _load_ordered reg strategy st ordered = (st', .ok ()) ∧
      st'.results.map Prod.fst = st.results.map Prod.fst ++ ordered := by
  intro ordered
  induction ordered with
  | nil =>
    intro st _ _
    exact ⟨st, rfl, by simp [_load_ordered]⟩
  | cons name rest ih =>
    intro st hreg hnd
    obtain ⟨fixture, hfix⟩ := get?_isSome_of_mem (hreg name (List.mem_cons_self _ _))
    have hknotin : name ∉ st.results.map Prod.fst := by
      intro hmem
      rw [List.nodup_append] at hnd
      exact hnd.2.2 hmem (List.mem_cons_self _ _)
    have hnd' : ∀ v : List Instance,
        ((dictSet st.results name v).map Prod.fst ++ rest).Nodup := by
      intro v
      rw [dictSet_append v hknotin, List.map_append]
      simpa [List.append_assoc] using hnd
    have hkeys' : ∀ v : List Instance,
        (dictSet st.results name v).map Prod.fst = st.results.map Prod.fst ++ [name] := by
      intro v
      rw [dictSet_append v hknotin, List.map_append]
      rfl
    simp only [_load_ordered, hfix]
    by_cases hempty : fixture.func.isEmpty = true
    · rw [if_pos hempty]
      obtain ⟨st', hst', hkeys⟩ := ih
        { st with trace := st.trace ++ [Ev.producerCalled name],
                  results := dictSet st.results name [] }
        (fun n hn => hreg n (List.mem_cons_of_mem _ hn)) (hnd' [])
      refine ⟨st', hst', ?_⟩
      rw [hkeys]
      show (dictSet st.results name []).map Prod.fst ++ rest =
        st.results.map Prod.fst ++ name :: rest
      rw [hkeys' []]
      simp [List.append_assoc]
    · rw [if_neg hempty]
      obtain ⟨st', hst', hkeys⟩ := ih
        { st with session := (loadFixture strategy st.session fixture.func).1,
                  trace := (st.trace ++ [Ev.producerCalled name]) ++ [Ev.txnOpened name],
                  results := dictSet st.results name
                    (loadFixture strategy st.session fixture.func).2 }
        (fun n hn => hreg n (List.mem_cons_of_mem _ hn))
        (hnd' (loadFixture strategy st.session fixture.func).2)
      refine ⟨st', hst', ?_⟩
      rw [hkeys]
      show (dictSet st.results name (loadFixture strategy st.session fixture.func).2).map
          Prod.fst ++ rest = st.results.map Prod.fst ++ name :: rest
      rw [hkeys' _]
      simp [List.append_assoc]

/-- A `load_fixtures` call whose resolution succeeds runs to completion and
returns one results entry per resolved name, in resolution order. -/
theorem load_fixtures_keys (reg : FixtureRegistry) (session : Session)
    (names : List String) (strategy : LoadStrategy) (l : List String)
    (h : reg.resolve_dependencies names = .ok l) :
    ∃ st, load_fixtures reg session names strategy = (st, .ok ()) ∧
      st.results.map Prod.fst = l ∧ l.Nodup := by
  obtain ⟨hnd, hregd⟩ := resolve_out_basic reg names l h
  obtain ⟨st, hst, hkeys⟩ := load_ordered_keys reg strategy l (initState session)
    hregd (by simpa [initState] using hnd)
  refine ⟨st, ?_, by simpa [initState] using hkeys, hnd⟩
  simp only [load_fixtures, h]
  exact hst

/-- Same for `load_fixtures_by_context`. -/
theorem load_fixtures_by_context_keys (reg : FixtureRegistry) (session : Session)
    (contexts : List String) (strategy : LoadStrategy) (l : List String)
    (h : reg.resolve_context_dependencies contexts = .ok l) :
    ∃ st, load_fixtures_by_context reg session contexts strategy = (st, .ok ()) ∧
      st.results.map Prod.fst = l ∧ l.Nodup := by
  obtain ⟨hnd, hregd⟩ := resolve_context_out_basic reg contexts l h
  obtain ⟨st, hst, hkeys⟩ := load_ordered_keys reg strategy l (initState session)
    hregd (by simpa [initState] using hnd)
  refine ⟨st, ?_, by simpa [initState] using hkeys, hnd⟩
  simp only [load_fixtures_by_context, h]
  exact hst

/-! ## Concrete registries and entities used by the witnesses. -/

/-- Scenario A registry: `roles` (no deps) and `users` (depends on roles). -/
def regDemo : FixtureRegistry :=
  [⟨"roles", [], [], ["base"]⟩, ⟨"users", [], ["roles"], ["base"]⟩]

/-- A ranking witness of `regDemo`'s acyclicity. -/
def rankDemo : String → Nat := fun s => if s = "users" then 1 else 0

/-- Scenario B registry: `a` and `b` depend on each other. -/
def regCyc : FixtureRegistry :=
  [⟨"a", [], ["b"], ["base"]⟩, ⟨"b", [], ["a"], ["base"]⟩]

/-- Scenario F registry: a testing-tagged fixture depending on a base-tagged
one. -/
def regCtx : FixtureRegistry :=
  [⟨"base_fix", [], [], ["base"]⟩, ⟨"test_fix", [], ["base_fix"], ["testing"]⟩]

/-- A ranking witness of `regCtx`'s acyclicity. -/
def rankCtx : String → Nat := fun s => if s = "test_fix" then 1 else 0

/-- A registry with a single fixture whose producer returns nothing. -/
def regE : FixtureRegistry := [⟨"empty_fix", [], [], ["base"]⟩]

/-- A single-column-key model. -/
def modelU : Model := ⟨"User", ["id"]⟩

/-- An instance of `modelU` with its key set. -/
def instKey : Instance := ⟨modelU, [("id", Val.int 1)]⟩

/-- An instance of `modelU` with no key set. -/
def instNoKey : Instance := ⟨modelU, []⟩

/-- A composite-key model. -/
def modelComp : Model := ⟨"Pair", ["a", "b"]⟩

/-- An instance of `modelComp` with one key component set and one unset. -/
def instHalf : Instance := ⟨modelComp, [("a", Val.int 1)]⟩

/-- A session whose storage already holds the row with `instKey`'s key. -/
def sess1 : Session := ⟨[instKey], []⟩

/-- A session with empty storage. -/
def sessEmpty : Session := ⟨[], []⟩

/-! ## The claims. -/

/-- C1: for every registry that is a well-formed dependency graph (every
dependency of a registered fixture and every requested name registered)
whose dependency relation restricted to the transitive closure of the
requested names is acyclic, `resolve_dependencies(*names)` returns a
sequence in which every transitive dependency of each requested name
appears strictly before that name, and no name appears more than once. -/
theorem claim_resolve_dependencies_topological (reg : FixtureRegistry)
    (names : List String) (hclosed : Closed reg)
    (hreg : ∀ n ∈ names, n ∈ reg.names)
    (hacyc : ∀ c, (∃ n ∈ names, Reach reg n c) →
      ¬ Relation.TransGen (edge reg) c c) :
    ∃ l, reg.resolve_dependencies names = .ok l ∧ l.Nodup ∧
      ∀ n ∈ names, n ∈ l ∧
        ∀ m, Relation.TransGen (edge reg) n m → m ∈ l ∧ pos m l < pos n l := by
  obtain ⟨l, hres, htopo, hmem, _⟩ := resolve_ok reg names hclosed hreg hacyc
  refine ⟨l, hres, htopo.1, ?_⟩
  intro n hn
  exact ⟨hmem n hn, fun m htg => topoOk_transGen htopo htg (hmem n hn)⟩

theorem claim_resolve_dependencies_topological_witness :
    Closed regDemo ∧
    (∃ l, regDemo.resolve_dependencies ["users"] = .ok l ∧ l.Nodup ∧
      ∀ n ∈ ["users"], n ∈ l ∧
        ∀ m, Relation.TransGen (edge regDemo) n m → m ∈ l ∧ pos m l < pos n l) :=
  ⟨by decide,
   claim_resolve_dependencies_topological regDemo ["users"] (by decide) (by decide)
     (fun c _ htg =>
       absurd (acyclic_of_rank regDemo rankDemo (by decide) c c htg) (lt_irrefl _))⟩

/-- C2: on a well-formed dependency graph (dependencies and requested names
registered), whenever a dependency cycle is reachable from a requested name
— one-node self-cycles included — `resolve_dependencies` fails with the
circular-dependency `ValueError`, whose payload names the node at which the
cycle was detected (a node lying on an actual cycle).  Resolution performs
no other side effect: it reads the registry and builds the output list
only. -/
theorem claim_resolve_dependencies_circular (reg : FixtureRegistry)
    (names : List String) (hclosed : Closed reg)
    (hreg : ∀ n ∈ names, n ∈ reg.names)
    (hcyc : ∃ n ∈ names, ∃ c, Reach reg n c ∧ Relation.TransGen (edge reg) c c) :
    ∃ c, reg.resolve_dependencies names = .error (.circular c) ∧
      Relation.TransGen (edge reg) c c :=
  resolve_cycle reg names hclosed hreg hcyc

theorem claim_resolve_dependencies_circular_witness :
    Closed regCyc ∧
    (∃ c, regCyc.resolve_dependencies ["a"] = .error (.circular c) ∧
      Relation.TransGen (edge regCyc) c c) := by
  have hab : edge regCyc "a" "b" :=
    ⟨⟨"a", [], ["b"], ["base"]⟩, by decide, by decide⟩
  have hba : edge regCyc "b" "a" :=
    ⟨⟨"b", [], ["a"], ["base"]⟩, by decide, by decide⟩
  exact ⟨by decide,
    claim_resolve_dependencies_circular regCyc ["a"] (by decide) (by decide)
      ⟨"a", by decide, "a", Relation.ReflTransGen.refl,
        Relation.TransGen.head hab (Relation.TransGen.single hba)⟩⟩

/-- C3: on a well-formed acyclic dependency graph,
`resolve_context_dependencies(*contexts)` returns each name of the union of
the transitive dependency closures of all fixtures tagged with any requested
context exactly once (duplicate-free list whose membership is exactly that
union), with dependencies strictly before dependents, including dependencies
whose own context tags are not among those requested. -/
theorem claim_resolve_context_dependencies_closure (reg : FixtureRegistry)
    (contexts : List String) (hclosed : Closed reg)
    (hacyc : ∀ c, (∃ f ∈ reg.get_by_context contexts, Reach reg f.name c) →
      ¬ Relation.TransGen (edge reg) c c) :
    ∃ l, reg.resolve_context_dependencies contexts = .ok l ∧ l.Nodup ∧
      (∀ x, x ∈ l ↔ ∃ f ∈ reg.get_by_context contexts, Reach reg f.name x) ∧
      (∀ a b, edge reg a b → a ∈ l → b ∈ l ∧ pos b l < pos a l) := by
  obtain ⟨l, hres, htopo, hchar⟩ := resolve_context_ok reg contexts hclosed hacyc
  exact ⟨l, hres, htopo.1, hchar, htopo.2⟩

theorem claim_resolve_context_dependencies_closure_witness :
    Closed regCtx ∧
    regCtx.resolve_context_dependencies ["testing"] = .ok ["base_fix", "test_fix"] ∧
    (∃ l, regCtx.resolve_context_dependencies ["testing"] = .ok l ∧ l.Nodup ∧
      (∀ x, x ∈ l ↔ ∃ f ∈ regCtx.get_by_context ["testing"], Reach regCtx f.name x) ∧
      (∀ a b, edge regCtx a b → a ∈ l → b ∈ l ∧ pos b l < pos a l)) :=
  ⟨by decide, by decide,
   claim_resolve_context_dependencies_closure regCtx ["testing"] (by decide)
     (fun c _ htg =>
       absurd (acyclic_of_rank regCtx rankCtx (by decide) c c htg) (lt_irrefl _))⟩

/-- C4: under the skip-existing strategy, per produced instance: with no
primary-key value the instance is staged for unconditional creation; with a
key and no existing row it is staged and recorded; with a key and an
existing row it is skipped entirely — session untouched (the existing row
unmodified) and nothing recorded. -/
theorem claim_skip_existing_semantics (s : Session) (loaded : List Instance)
    (inst : Instance) :
    (_get_primary_key inst = none →
      loadInstance .skip_existing s loaded inst = (s.add inst, loaded ++ [inst])) ∧
    (∀ pk, _get_primary_key inst = some pk → s.lookup inst.model.name pk = none →
      loadInstance .skip_existing s loaded inst = (s.add inst, loaded ++ [inst])) ∧
    (∀ pk ex, _get_primary_key inst = some pk →
      s.lookup inst.model.name pk = some ex →
      loadInstance .skip_existing s loaded inst = (s, loaded)) := by
  refine ⟨?_, ?_, ?_⟩
  · intro h
    simp [loadInstance, h]
  · intro pk h1 h2
    simp [loadInstance, h1, h2]
  · intro pk ex h1 h2
    simp [loadInstance, h1, h2]

theorem claim_skip_existing_semantics_witness :
    loadInstance .skip_existing sess1 [] instKey = (sess1, []) ∧
    loadInstance .skip_existing sessEmpty [] instKey =
      (sessEmpty.add instKey, [instKey]) ∧
    loadInstance .skip_existing sess1 [] instNoKey =
      (sess1.add instNoKey, [instNoKey]) :=
  ⟨(claim_skip_existing_semantics sess1 [] instKey).2.2
      (PKVal.single (Val.int 1)) instKey (by decide) (by decide),
   (claim_skip_existing_semantics sessEmpty [] instKey).2.1
      (PKVal.single (Val.int 1)) (by decide) (by decide),
   (claim_skip_existing_semantics sess1 [] instNoKey).1 (by decide)⟩

/-- C5 counterexample: `instHalf` has a two-column composite key with the
first component set and the second unset; `_get_primary_key` answers "no
key", although not every component is unset — refuting, at this concrete
input, the claim that an instance is considered to have no key only if
every component of the key is unset. -/
theorem claim_pk_partial_counterexample :
    instHalf.model.pk_cols.length = 2 ∧
    _get_primary_key instHalf = none ∧
    instHalf.getattr "a" = some (Val.int 1) ∧
    ¬ (∀ c ∈ instHalf.model.pk_cols, instHalf.getattr c = none) := by
  refine ⟨by decide, by decide, by decide, by decide⟩

theorem gpk_nil (inst : Instance) (h : inst.model.pk_cols = []) :
    _get_primary_key inst = some (PKVal.tuple []) := by
  unfold _get_primary_key
  rw [h]
  rfl

theorem gpk_composite (inst : Instance) (c1 c2 : String) (cs : List String)
    (h : inst.model.pk_cols = c1 :: c2 :: cs) :
    _get_primary_key inst =
      if ((c1 :: c2 :: cs).map inst.getattr).all Option.isSome
      then some (PKVal.tuple ((c1 :: c2 :: cs).map inst.getattr).reduceOption)
      else none := by
  unfold _get_primary_key
  rw [h]

/-- C5 (amended): primary-key extraction handles both single-column and
composite primary keys; a single-column key is the column's (possibly
absent) value, and for any other arity the instance is considered to have a
key exactly when every component is set — so a partially set composite key
is treated as fully unset, deferring to unconditional creation. -/
theorem claim_pk_extraction_amended (inst : Instance) :
    (∀ c, inst.model.pk_cols = [c] →
      _get_primary_key inst = (inst.getattr c).map PKVal.single) ∧
    (inst.model.pk_cols.length ≠ 1 →
      ((_get_primary_key inst).isSome ↔
        ∀ c ∈ inst.model.pk_cols, (inst.getattr c).isSome)) := by
  constructor
  · intro c hc
    unfold _get_primary_key
    rw [hc]
  · intro hlen
    cases hcols : inst.model.pk_cols with
    | nil =>
      rw [gpk_nil inst hcols]
      simp
    | cons c cs =>
      cases cs with
      | nil => exact absurd (by rw [hcols]; rfl) hlen
      | cons c2 cs2 =>
        rw [gpk_composite inst c c2 cs2 hcols]
        by_cases hall : ((c :: c2 :: cs2).map inst.getattr).all Option.isSome = true
        · rw [if_pos hall]
          rw [List.all_eq_true] at hall
          simp only [Option.isSome_some, true_iff]
          intro col hcol
          exact hall _ (List.mem_map.mpr ⟨col, hcol, rfl⟩)
        · rw [if_neg hall]
          simp only [Option.isSome_none, Bool.false_eq_true, false_iff]
          intro hforall
          refine hall (List.all_eq_true.mpr ?_)
          intro v hv
          obtain ⟨col, hcol, hveq⟩ := List.mem_map.mp hv
          exact hveq ▸ hforall col hcol

theorem claim_pk_extraction_amended_witness :
    _get_primary_key instKey = some (PKVal.single (Val.int 1)) ∧
    ((_get_primary_key instHalf).isSome ↔
      ∀ c ∈ instHalf.model.pk_cols, (instHalf.getattr c).isSome) :=
  ⟨by rw [(claim_pk_extraction_amended instKey).1 "id" rfl]; decide,
   (claim_pk_extraction_amended instHalf).2 (by decide)⟩

/-- C6: when the strategy value supplied to the CLI load command matches no
member of the closed `LoadStrategy` enumeration, the invalid-strategy error
is raised. -/
theorem claim_invalid_strategy_error (s : String)
    (h : ∀ st : LoadStrategy, st.value ≠ s) :
    cli_parse_strategy s =
      .error ("Invalid strategy: " ++ s ++ ". Use: merge, insert, skip_existing") := by
  have h1 : ¬ s = "insert" := fun he => h .insert he.symm
  have h2 : ¬ s = "merge" := fun he => h .merge he.symm
  have h3 : ¬ s = "skip_existing" := fun he => h .skip_existing he.symm
  simp [cli_parse_strategy, LoadStrategy.fromValue?, h1, h2, h3]

theorem claim_invalid_strategy_error_witness :
    cli_parse_strategy "bogus" =
      .error ("Invalid strategy: " ++ "bogus" ++ ". Use: merge, insert, skip_existing") :=
  claim_invalid_strategy_error "bogus" (by intro st; cases st <;> decide)

/-- C7: if dependency resolution fails — an unregistered fixture or
dependency name (`KeyError`) or a circular dependency (`ValueError`) — the
whole `load_fixtures` call aborts with that error while the trace is empty
(no producer invoked, no transaction opened) and the session is returned
exactly as supplied (storage unchanged). -/
theorem claim_resolution_failure_aborts (reg : FixtureRegistry) (session : Session)
    (names : List String) (strategy : LoadStrategy) (e : ResolveError)
    (h : reg.resolve_dependencies names = .error e) :
    load_fixtures reg session names strategy =
      ({ session := session, trace := [], results := [] },
        .error (.resolution e)) := by
  simp [load_fixtures, h, initState]

theorem claim_resolution_failure_aborts_witness :
    load_fixtures regDemo sessEmpty ["missing"] .merge =
      ({ session := sessEmpty, trace := [], results := [] },
        .error (.resolution (.notFound "missing"))) :=
  claim_resolution_failure_aborts regDemo sessEmpty ["missing"] .merge
    (.notFound "missing") (by decide)

/-- C8: `resolve_dependencies` and `resolve_context_dependencies` are
idempotent: a second call with the same arguments against the registry state
left by the first call yields an identical output sequence, the registry
being unchanged (the methods only read `self._fixtures`). -/
theorem claim_resolve_idempotent (reg : FixtureRegistry)
    (names contexts : List String) :
    ((reg.resolve_dependenciesS names).1 =
        ((reg.resolve_dependenciesS names).2.resolve_dependenciesS names).1 ∧
      (reg.resolve_dependenciesS names).2 = reg) ∧
    ((reg.resolve_context_dependenciesS contexts).1 =
        ((reg.resolve_context_dependenciesS contexts).2.resolve_context_dependenciesS
          contexts).1 ∧
      (reg.resolve_context_dependenciesS contexts).2 = reg) :=
  ⟨⟨rfl, rfl⟩, ⟨rfl, rfl⟩⟩

/-- C9: a fixture whose producer returns an empty sequence gets an empty
recorded result, and processing it leaves the session untouched and appends
only the producer-invocation event to the trace — in particular no
transaction-opened event for it. -/
theorem claim_empty_producer_frame (reg : FixtureRegistry) (strategy : LoadStrategy)
    (st : LoadState) (name : String) (rest : List String) (fixture : Fixture)
    (hfix : reg.get? name = some fixture) (hempty : fixture.func = []) :
    _load_ordered reg strategy st (name :: rest) =
      _load_ordered reg strategy
        ⟨st.session, st.trace ++ [Ev.producerCalled name],
          dictSet st.results name []⟩ rest := by
  simp [_load_ordered, hfix, hempty]

theorem claim_empty_producer_frame_witness :
    _load_ordered regE .merge (initState sessEmpty) ["empty_fix"] =
      _load_ordered regE .merge
        ⟨sessEmpty, [Ev.producerCalled "empty_fix"],
          dictSet [] "empty_fix" []⟩ [] :=
  claim_empty_producer_frame regE .merge (initState sessEmpty) "empty_fix" []
    ⟨"empty_fix", [], [], ["base"]⟩ (by decide) rfl

/-- C10: every successful `load_fixtures` or `load_fixtures_by_context`
call returns a results mapping whose keys are exactly the resolved
dependency order — dependency fixtures not explicitly requested included —
each exactly once, inserted in load order. -/
theorem claim_load_results_keys (reg : FixtureRegistry) (session : Session)
    (strategy : LoadStrategy) :
    (∀ names l, reg.resolve_dependencies names = .ok l →
      ∃ st, load_fixtures reg session names strategy = (st, .ok ()) ∧
        st.results.map Prod.fst = l ∧ l.Nodup) ∧
    (∀ contexts l, reg.resolve_context_dependencies contexts = .ok l →
      ∃ st, load_fixtures_by_context reg session contexts strategy = (st, .ok ()) ∧
        st.results.map Prod.fst = l ∧ l.Nodup) :=
  ⟨fun names l h => load_fixtures_keys reg session names strategy l h,
   fun contexts l h => load_fixtures_by_context_keys reg session contexts strategy l h⟩

theorem claim_load_results_keys_witness :
    ∃ st, load_fixtures regDemo sessEmpty ["users"] .merge = (st, .ok ()) ∧
      st.results.map Prod.fst = ["roles", "users"] ∧
      (["roles", "users"] : List String).Nodup :=
  (claim_load_results_keys regDemo sessEmpty .merge).1 ["users"] ["roles", "users"]
    (by decide)

end FT
